import Mathlib

/-!
Verification of the dispatch core of `ts-typed-function`
(`src/typed-function.ts`, `src/decorators.ts`).

The embedding models the `Typed` class: a registry of type guards and
conversion edges, the signature compiler (`_convertParamToUnion`,
`_getSignatureGuard`), the function factory (`_makeFunction`) and the
public `function` entry point.  JavaScript runtime values are embedded as
`JSValue`; thrown `Error`/`TypeError` objects are embedded as the
`TypedError` sum carried in `Except`.  Type tokens (the `Type` values the
source uses as `WeakMap` keys, compared by object identity) are embedded
as an arbitrary type `T` with decidable equality; the `WeakMap`s become
association lists.

The guard-combinator module `guardtypes` (`union`, `tuple`, `matcher`,
`choose`, `intersect`, `applier`) is part of the repository but its source
file is not available here; those six functions are modelled from the
specification's description of them, each marked `Modelled from the
spec:` in its doc comment.  Everything else is translated from the
TypeScript source.
-/

namespace TSTypedFunction

/-- Embedding of the JavaScript runtime values the verified scenarios use:
numbers, strings, instances of a two-field `Pair`/`Complex`-style class,
and `undefined` (used as the result of an implementation applied to
arguments it was not written for). -/
inductive JSValue : Type where
  | num : Int → JSValue
  | str : String → JSValue
  | pair : Int → Int → JSValue
  | undefined : JSValue
deriving DecidableEq

/-- A runtime type guard, `Guard<unknown>` in the source. -/
abbrev Guard : Type := JSValue → Bool

/-- A conversion function, `Conversion<unknown, unknown>` in the source. -/
abbrev Conv : Type := JSValue → JSValue

/-- `const I = (x: unknown) => x` from `typed-function.ts`. -/
def I : Conv := fun x => x

/-- Modelled from the spec: the diagnostic name of a runtime value's type,
as would be reported in dispatch error messages. -/
def typeName : JSValue → String
  | .num _ => "Number"
  | .str _ => "String"
  | .pair _ _ => "Pair"
  | .undefined => "undefined"

/-- Embedding of the errors thrown by the source.
`noSignatures` is `Error('No signatures provided')`;
`unknownType name` is ``TypeError(`Unknown type "${name}"`)``;
`noAlternatives` is the constant `TypeError('No alternatives were matched')`
thrown by the specialized paths of `_makeFunction`;
`noMatch attempted` is the dispatch failure raised by the `choose`
combinator (modelled from the spec, which says it carries the attempted
argument types);
`internal` stands for the `TypeError` JavaScript raises when
`_makeFunction` destructures `sequence[0]` of an empty candidate list. -/
inductive TypedError : Type where
  | noSignatures
  | unknownType (name : String)
  | noAlternatives
  | noMatch (attempted : List String)
  | internal
deriving DecidableEq

/-- The dispatch-failure errors (`DispatchError.NoMatch` in the spec's
taxonomy): either specialized path's constant `TypeError` or the general
scan's failure. -/
def TypedError.isNoMatch : TypedError → Bool
  | .noAlternatives => true
  | .noMatch _ => true
  | _ => false

/-- Modelled from the spec: `intersect(guards)` from the missing
`guardtypes` module — true iff every guard accepts the value (AND). -/
def intersect (guards : List Guard) : Guard :=
  fun x => guards.all (fun g => g x)

/-- Modelled from the spec: `union(guards)` from the missing `guardtypes`
module — true iff any guard accepts, tested in array order. -/
def union (guards : List Guard) : Guard :=
  fun x => guards.any (fun g => g x)

/-- Modelled from the spec: `tuple(slotGuards)` from the missing
`guardtypes` module — over an argument list, true iff
`args.length == slotGuards.length` and each position's slot guard accepts
`args[i]`. -/
def tuple (slotGuards : List Guard) : List JSValue → Bool :=
  fun args =>
    decide (args.length = slotGuards.length) &&
      (slotGuards.zip args).all (fun ga => ga.1 ga.2)

/-- Modelled from the spec: `matcher(guards, converters)` from the missing
`guardtypes` module — given a value, find the first guard (in set order)
that accepts it and apply the converter recorded at the same position;
the value is returned unchanged when no guard accepts it. -/
def matcher (guards : List Guard) (converters : List Conv) : Conv :=
  fun x =>
    match (guards.zip converters).find? (fun gc => gc.1 x) with
    | some gc => gc.2 x
    | none => x

/-- Helper for `applier`: walk the argument list, replacing `args[i]` by
`matchers[i] args[i]` where a matcher is recorded at position `i` and
leaving the argument untouched otherwise (also when the matcher table is
shorter than the argument list). -/
def applyConverters : List JSValue → List (Option Conv) → List JSValue
  | [], _ => []
  | a :: as, [] => a :: applyConverters as []
  | a :: as, none :: ms => a :: applyConverters as ms
  | a :: as, some c :: ms => c a :: applyConverters as ms

/-- Modelled from the spec: `applier(matchers)` from the missing
`guardtypes` module — over an argument list, for each position with a
recorded converter replace `args[i]` with `converter(args[i])`, leaving
unconverted positions untouched. -/
def applier (matchers : List (Option Conv)) : List JSValue → List JSValue :=
  fun args => applyConverters args matchers

/-- One compiled candidate as assembled by `Typed.function`: the
`sequence` entries `[g, [target[key], convert]]` of the source. -/
structure Candidate : Type where
  guard : List JSValue → Bool
  method : List JSValue → JSValue
  convert : List JSValue → List JSValue

/-- Modelled from the spec: `choose(sequence)` from the missing
`guardtypes` module — select the payload of the first entry (in order)
whose guard accepts the argument list; when none accepts, fail with the
dispatch error carrying the attempted argument types. -/
def choose (sequence : List Candidate) (args : List JSValue) :
    Except TypedError Candidate :=
  match sequence.find? (fun c => c.guard args) with
  | some c => .ok c
  | none => .error (.noMatch (args.map typeName))

/-- A registered conversion edge, interface `ConversionMethod` of
`typed-function.ts`: `{ fromType, convert }`, stored keyed by `toType`. -/
structure ConversionMethod (T : Type) : Type where
  fromType : T
  convert : Conv

/-- Association-list rendering of `WeakMap.get`. -/
def lookupMap {T : Type} [DecidableEq T] {α : Type} (m : List (T × α)) (k : T) :
    Option α :=
  (m.find? (fun p => decide (p.1 = k))).map (fun p => p.2)

/-- The state of a `Typed` instance: the two `WeakMap`s plus the
`autoadd` option.  `nameOf` embeds the `getName` helper used to render a
token in the `Unknown type` message; `instOf` abstracts the
`x instanceof ctor` guard that `_addTypes` seeds for a constructor token
when auto-registration is enabled (no claim exercises that mode). -/
structure Typed (T : Type) : Type where
  guards : List (T × List Guard)
  conversions : List (T × List (ConversionMethod T))
  autoadd : Bool
  nameOf : T → String
  instOf : T → JSValue → Bool

/-- `Typed._getGuard`: intersect the guards registered for a token; throw
`Unknown type` when the token is unregistered and `autoadd` is off; when
`autoadd` is on, behave as after seeding the instance-of guard. -/
def Typed.getGuard {T : Type} [DecidableEq T] (t : Typed T) (type : T) :
    Except TypedError Guard :=
  match lookupMap t.guards type with
  | some gs => .ok (intersect gs)
  | none =>
      if t.autoadd then .ok (intersect [t.instOf type])
      else .error (.unknownType (t.nameOf type))

/-- Exception-propagating `map`, the rendering of a JavaScript
`Array.prototype.map`/`forEach` whose callback may throw. -/
def mapE {α β : Type} (f : α → Except TypedError β) : List α → Except TypedError (List β)
  | [] => .ok []
  | x :: xs =>
    match f x with
    | .error e => .error e
    | .ok y =>
      match mapE f xs with
      | .error e => .error e
      | .ok ys => .ok (y :: ys)

/-- The body of the inner `conversions.forEach` of `_convertParamToUnion`:
`if (types.indexOf(fromType) < 0) { types.push(fromType); converters.push(convert); }`.
The accumulator is the pair of the (mutated) `types` and `converters`
arrays. -/
def expandStep {T : Type} [DecidableEq T] (acc : List T × List Conv)
    (e : ConversionMethod T) : List T × List Conv :=
  if e.fromType ∈ acc.1 then acc else (acc.1 ++ [e.fromType], acc.2 ++ [e.convert])

/-- `this.conversions.get(toType) || []`. -/
def edgesFor {T : Type} [DecidableEq T]
    (convs : List (T × List (ConversionMethod T))) (to' : T) :
    List (ConversionMethod T) :=
  (lookupMap convs to').getD []

/-- The expansion loop of `_convertParamToUnion`.  The source iterates
`types.forEach(toType => ...)` while pushing onto `types`; per the
semantics of `Array.prototype.forEach` (the visited range is fixed before
the first callback), only the originally present elements — the declared
types — are visited, so the loop is a fold over the declared list.  The
result pairs the mutated `types` array with the parallel `converters`
array (`I` for each declared type). -/
def expandTypeStep {T : Type} [DecidableEq T]
    (convs : List (T × List (ConversionMethod T))) (acc : List T × List Conv)
    (toType : T) : List T × List Conv :=
  (edgesFor convs toType).foldl expandStep acc

def expandParam {T : Type} [DecidableEq T]
    (convs : List (T × List (ConversionMethod T))) (declared : List T) :
    List T × List Conv :=
  declared.foldl (expandTypeStep convs) (declared, declared.map fun _ => I)

/-- The relation between an appended type and its appended converter in
the expansion of a declared parameter: the type is new, and it is the
`fromType` of a registered conversion edge into one of the declared
types, paired with that edge's converter. -/
def SlotRel {T : Type} [DecidableEq T] (convs : List (T × List (ConversionMethod T)))
    (declared : List T) (x : T) (c : Conv) : Prop :=
  x ∉ declared ∧ ∃ to' ∈ declared, ∃ e ∈ edgesFor convs to',
    e.fromType = x ∧ e.convert = c

/-- Invariant of the expansion loop: the accumulator is the declared list
(with identity converters) followed by pairwise-distinct appended
one-hop conversion sources with their converters. -/
def SlotInv {T : Type} [DecidableEq T] (convs : List (T × List (ConversionMethod T)))
    (declared : List T) (acc : List T × List Conv) : Prop :=
  ∃ added addedCs,
    acc.1 = declared ++ added ∧
    acc.2 = declared.map (fun _ => I) ++ addedCs ∧
    added.Nodup ∧
    List.Forall₂ (SlotRel convs declared) added addedCs

/-- The result of compiling one declared parameter: the mutated `types`
array (the in-place expansion of the caller's array), the slot's union
guard, and the matcher (`null` — `none` — when the expansion added
nothing). -/
structure SlotCompiled (T : Type) : Type where
  types : List T
  guard : Guard
  matchFn : Option Conv

/-- `Typed._convertParamToUnion`: expand the declared type set by one hop
of conversions, resolve every token's guard, and build the union guard
plus (when conversions apply) the matcher. -/
def Typed.convertParamToUnion {T : Type} [DecidableEq T] (t : Typed T)
    (types : List T) : Except TypedError (SlotCompiled T) :=
  match mapE (t.getGuard) (expandParam t.conversions types).1 with
  | .error e => .error e
  | .ok guards =>
      if types.length = (expandParam t.conversions types).1.length then
        .ok ⟨(expandParam t.conversions types).1, union guards, none⟩
      else
        .ok ⟨(expandParam t.conversions types).1, union guards,
          some (matcher guards (expandParam t.conversions types).2)⟩

/-- The result of compiling one signature: the (mutated) parameter
arrays, the tuple guard and the `applier` conversion. -/
structure SigCompiled (T : Type) : Type where
  params : List (List T)
  guard : List JSValue → Bool
  convert : List JSValue → List JSValue

/-- `Typed._getSignatureGuard`: compile each parameter, then combine the
slot guards with `tuple` and the slot matchers with `applier`. -/
def Typed.getSignatureGuard {T : Type} [DecidableEq T] (t : Typed T)
    (params : List (List T)) : Except TypedError (SigCompiled T) :=
  match mapE (t.convertParamToUnion) params with
  | .error e => .error e
  | .ok slots =>
      .ok ⟨slots.map (fun s => s.types), tuple (slots.map (fun s => s.guard)),
        applier (slots.map (fun s => s.matchFn))⟩

/-- One key of the `SignatureMap` harvested by the `@signature` decorator,
together with the method stored at that key on the target instance.
`signatures` is the list `map[key]`, each signature a list of parameters,
each parameter a list of type tokens. -/
structure MethodDef (T : Type) : Type where
  key : String
  method : List JSValue → JSValue
  signatures : List (List (List T))

/-- The harvested `META_METHODS` metadata of a function class, in key
insertion order. -/
structure FunSpec (T : Type) : Type where
  defs : List (MethodDef T)

/-- The `for (const key in map) { signatures.forEach(...) }` loop of
`Typed.function`: build the ordered candidate `sequence` and, modelling
the in-place mutation of the stored parameter arrays, the updated
metadata. -/
def Typed.buildSequence {T : Type} [DecidableEq T] (t : Typed T) :
    List (MethodDef T) → Except TypedError (List Candidate × List (MethodDef T))
  | [] => .ok ([], [])
  | d :: rest =>
    match mapE (t.getSignatureGuard) d.signatures with
    | .error e => .error e
    | .ok sigs =>
      match t.buildSequence rest with
      | .error e => .error e
      | .ok (cs, ds) =>
          .ok (sigs.map (fun sc => ⟨sc.guard, d.method, sc.convert⟩) ++ cs,
            ⟨d.key, d.method, sigs.map (fun sc => sc.params)⟩ :: ds)

/-- The running `maxLength = Math.max(maxLength, signature.length)`
computation of `Typed.function` over every signature of every key. -/
def maxLengthOf {T : Type} (defs : List (MethodDef T)) : Nat :=
  defs.foldl (fun m d => d.signatures.foldl (fun m s => max m s.length) m) 0

/-- `Typed._makeFunction`: the function factory.  Specialized paths for a
nullary dispatcher and for exactly one or two candidates; three or more
candidates go through `choose`.  The source destructures `sequence[0]`
before any branch, so an empty candidate list is a JavaScript `TypeError`
(`internal`). -/
def makeFunction (sequence : List Candidate) (maxLength : Nat) :
    List JSValue → Except TypedError JSValue :=
  match sequence with
  | [] => fun _ => .error .internal
  | c0 :: rest =>
    match maxLength with
    | 0 =>
      fun args =>
        if 0 < args.length then .error .noAlternatives
        else .ok (c0.method [])
    | _ + 1 =>
      match rest with
      | [] => fun args =>
          if c0.guard args then .ok (c0.method (c0.convert args))
          else .error .noAlternatives
      | [c1] => fun args =>
          if c0.guard args then .ok (c0.method (c0.convert args))
          else if c1.guard args then .ok (c1.method (c1.convert args))
          else .error .noAlternatives
      | _ => fun args =>
          match choose sequence args with
          | .error e => .error e
          | .ok c => .ok (c.method (c.convert args))

/-- `Typed.function`: compile a function class into one dispatching
callable.  `none` embeds a class carrying no `META_METHODS` metadata (no
`@signature` was ever applied), rejected as `No signatures provided`; the
source's second check `Object.keys(map).length < 0` is kept literally
(it can never fire on natural numbers, exactly as in JavaScript).  The
returned pair is the callable together with the (mutated) metadata. -/
def Typed.function {T : Type} [DecidableEq T] (t : Typed T)
    (spec : Option (FunSpec T)) :
    Except TypedError ((List JSValue → Except TypedError JSValue) × FunSpec T) :=
  match spec with
  | none => .error .noSignatures
  | some s =>
    if s.defs.length < 0 then .error .noSignatures
    else
      match t.buildSequence s.defs with
      | .error e => .error e
      | .ok (seq, defs2) => .ok (makeFunction seq (maxLengthOf s.defs), ⟨defs2⟩)

/-- The unspecialized candidate scan: exactly the `choose`-based body that
`_makeFunction` builds for three or more candidates, used as the reference
behavior the fast paths are compared against. -/
def generalScan (sequence : List Candidate) (args : List JSValue) :
    Except TypedError JSValue :=
  match choose sequence args with
  | .error e => .error e
  | .ok c => .ok (c.method (c.convert args))

/-- Extract the compiled callable from a `Typed.function` result. -/
def fnOf {T : Type}
    (r : Except TypedError ((List JSValue → Except TypedError JSValue) × FunSpec T)) :
    List JSValue → Except TypedError JSValue :=
  match r with
  | .ok p => p.1
  | .error _ => fun _ => .error .internal

/-- Extract the post-compilation metadata from a `Typed.function` result. -/
def specOf {T : Type}
    (r : Except TypedError ((List JSValue → Except TypedError JSValue) × FunSpec T)) :
    FunSpec T :=
  match r with
  | .ok p => p.2
  | .error _ => ⟨[]⟩

/-- Well-formedness of a candidate list with respect to the `maxLength`
the factory receives: whenever `maxLength` is `0` — which, for a compiled
dispatcher, means every signature declared zero parameters — every
candidate's guard is the empty tuple guard and its conversion is the
empty `applier`.  Every sequence built by `Typed.buildSequence` satisfies
this for its own `maxLengthOf`. -/
def NullarySafe (sequence : List Candidate) (maxLength : Nat) : Prop :=
  maxLength = 0 → ∀ c ∈ sequence, c.guard = tuple [] ∧ c.convert = applier []

/-- Behavioral agreement of two dispatch outcomes: they succeed with the
same values, and one fails with a dispatch (`NoMatch`-class) error exactly
when the other does. -/
def sameOutcome (r1 r2 : Except TypedError JSValue) : Prop :=
  (∀ v, r1 = .ok v ↔ r2 = .ok v) ∧
    ((∃ e, r1 = .error e ∧ e.isNoMatch = true) ↔
      (∃ e, r2 = .error e ∧ e.isNoMatch = true))

/-! ### A concrete instance

The scenario used throughout the test suite and the spec's testable
properties: the types `number`, `string` and a registered `Pair` class, a
conversion `number → Pair(value, 0)`, and the `Times` function class with
candidates `number×number→number` and `Pair×Pair→Pair`. -/

/-- The type tokens of the concrete scenario.  `foo` is a class that is
never registered (the `Unknown type "Foo"` test). -/
inductive Tok : Type where
  | number
  | string
  | pair
  | foo
deriving DecidableEq

/-- `DefaultTypes.isNumber`. -/
def isNumber : Guard := fun x => match x with | .num _ => true | _ => false

/-- `DefaultTypes.isString`. -/
def isString : Guard := fun x => match x with | .str _ => true | _ => false

/-- The `@guard()`-declared predicate of the `Pair` class
(`a instanceof Pair`). -/
def isPair : Guard := fun x => match x with | .pair _ _ => true | _ => false

/-- The `@conversion()`-declared `fromNumber(a: number): Pair` method:
`number → Pair(value, 0)`. -/
def numToPair : Conv := fun x => match x with | .num n => .pair n 0 | v => v

/-- `getName` on the concrete tokens. -/
def tokName : Tok → String
  | .number => "Number"
  | .string => "String"
  | .pair => "Pair"
  | .foo => "Foo"

/-- A `Typed` instance holding the three registered types and the
`number → Pair` conversion edge, with auto-registration off (the
default). -/
def typedTok : Typed Tok where
  guards := [(.number, [isNumber]), (.string, [isString]), (.pair, [isPair])]
  conversions := [(.pair, [⟨.number, numToPair⟩])]
  autoadd := false
  nameOf := tokName
  instOf := fun _ _ => false

/-- The `number(a, b) { return a * b }` implementation of `Times`. -/
def mulImpl : List JSValue → JSValue :=
  fun args => match args with
    | [.num a, .num b] => .num (a * b)
    | _ => .undefined

/-- The `complex(a, b) { return a.times(b) }` implementation of `Times`:
the field-wise combination `(a,b)×(c,d) = (a*c - b*d, a*d + b*c)`. -/
def pairMul : List JSValue → JSValue :=
  fun args => match args with
    | [.pair a b, .pair c d] => .pair (a * c - b * d) (a * d + b * c)
    | _ => .undefined

/-- The harvested metadata of the `Times` class, with the `Pair×Pair`
implementation kept abstract so theorems can state exactly which
arguments it is invoked with. -/
def timesSpec (m2 : List JSValue → JSValue) : FunSpec Tok :=
  ⟨[⟨"number", mulImpl, [[[.number], [.number]]]⟩,
    ⟨"pair", m2, [[[.pair], [.pair]]]⟩]⟩

/-- The result of compiling `Times`. -/
def timesResult (m2 : List JSValue → JSValue) :
    Except TypedError ((List JSValue → Except TypedError JSValue) × FunSpec Tok) :=
  typedTok.function (some (timesSpec m2))

/-- The compiled `times` callable. -/
def timesFn (m2 : List JSValue → JSValue) : List JSValue → Except TypedError JSValue :=
  fnOf (timesResult m2)

/-- The `Times` metadata after compilation (the source mutates the stored
parameter arrays in place while compiling). -/
def timesSpecOut (m2 : List JSValue → JSValue) : FunSpec Tok :=
  specOf (timesResult m2)

/-- Compiling `Times` a second time, from the metadata the first
compilation left behind. -/
def timesResult2 (m2 : List JSValue → JSValue) :
    Except TypedError ((List JSValue → Except TypedError JSValue) × FunSpec Tok) :=
  typedTok.function (some (timesSpecOut m2))

/-- The callable produced by the second compilation. -/
def timesFn2 (m2 : List JSValue → JSValue) : List JSValue → Except TypedError JSValue :=
  fnOf (timesResult2 m2)

/-- A function class with the single candidate `number×number→number`. -/
def mulSpec : FunSpec Tok := ⟨[⟨"mul", mulImpl, [[[.number], [.number]]]⟩]⟩

/-- The compiled single-candidate dispatcher (exercises the
one-candidate specialized path of `_makeFunction`). -/
def mulFn : List JSValue → Except TypedError JSValue :=
  fnOf (typedTok.function (some mulSpec))

/-- A function class whose sole candidate is nullary. -/
def nullarySpec : FunSpec Tok := ⟨[⟨"n", (fun _ => .num 42), [[]]⟩]⟩

/-- The compiled nullary dispatcher. -/
def nullaryFn : List JSValue → Except TypedError JSValue :=
  fnOf (typedTok.function (some nullarySpec))

/-- A function class referencing the unregistered token `Foo`. -/
def fooSpec : FunSpec Tok := ⟨[⟨"s", (fun _ => .undefined), [[[.foo]]]⟩]⟩

/-- A function class with two candidates both accepting
`(number, number)`, methods kept abstract. -/
def twoNumSpec (f g : List JSValue → JSValue) : FunSpec Tok :=
  ⟨[⟨"first", f, [[[.number], [.number]]]⟩,
    ⟨"second", g, [[[.number], [.number]]]⟩]⟩

/-- The dispatcher compiled from `twoNumSpec`. -/
def twoNumFn (f g : List JSValue → JSValue) : List JSValue → Except TypedError JSValue :=
  fnOf (typedTok.function (some (twoNumSpec f g)))

/-- Extract the compiled slot from a `_convertParamToUnion` result. -/
def slotOf {T : Type} (r : Except TypedError (SlotCompiled T)) : SlotCompiled T :=
  match r with
  | .ok s => s
  | .error _ => ⟨[], fun _ => false, none⟩

/-- The slot compiled for a single declared `Pair` parameter under
`typedTok` (its accepted set gains `number` through the registered
conversion). -/
def pairSlot : SlotCompiled Tok :=
  slotOf (typedTok.convertParamToUnion [Tok.pair])

/-! ### Basic lemmas about `mapE` and the combinators -/

theorem mapE_ok_forall₂ {α β : Type} {f : α → Except TypedError β} :
    ∀ {l : List α} {ys : List β}, mapE f l = .ok ys →
      List.Forall₂ (fun x y => f x = .ok y) l ys := by
  intro l
  induction l with
  | nil =>
      intro ys h
      simp only [mapE] at h
      cases h
      exact List.Forall₂.nil
  | cons x xs ih =>
      intro ys h
      simp only [mapE] at h
      cases hf : f x with
      | error e => rw [hf] at h; cases h
      | ok y =>
          rw [hf] at h
          cases hm : mapE f xs with
          | error e => rw [hm] at h; cases h
          | ok ys' =>
              rw [hm] at h
              cases h
              exact List.Forall₂.cons hf (ih hm)

theorem forall₂_mem_left {α β : Type} {R : α → β → Prop} :
    ∀ {l1 : List α} {l2 : List β}, List.Forall₂ R l1 l2 →
      ∀ x ∈ l1, ∃ y ∈ l2, R x y := by
  intro l1 l2 h
  induction h with
  | nil => intro x hx; cases hx
  | cons hR _ ih =>
      intro x hx
      cases hx with
      | head => exact ⟨_, List.mem_cons_self _ _, hR⟩
      | tail _ hx =>
          obtain ⟨y, hy, hRy⟩ := ih _ hx
          exact ⟨y, List.mem_cons_of_mem _ hy, hRy⟩

theorem forall₂_mem_right {α β : Type} {R : α → β → Prop} :
    ∀ {l1 : List α} {l2 : List β}, List.Forall₂ R l1 l2 →
      ∀ y ∈ l2, ∃ x ∈ l1, R x y := by
  intro l1 l2 h
  induction h with
  | nil => intro y hy; cases hy
  | cons hR _ ih =>
      intro y hy
      cases hy with
      | head => exact ⟨_, List.mem_cons_self _ _, hR⟩
      | tail _ hy =>
          obtain ⟨x, hx, hRx⟩ := ih _ hy
          exact ⟨x, List.mem_cons_of_mem _ hx, hRx⟩

theorem mapE_ok_mem {α β : Type} {f : α → Except TypedError β} {l : List α}
    {ys : List β} (h : mapE f l = .ok ys) :
    ∀ x ∈ l, ∃ y, f x = .ok y := by
  intro x hx
  obtain ⟨y, _, hy⟩ := forall₂_mem_left (mapE_ok_forall₂ h) x hx
  exact ⟨y, hy⟩

theorem mapE_ok_mem_right {α β : Type} {f : α → Except TypedError β} {l : List α}
    {ys : List β} (h : mapE f l = .ok ys) :
    ∀ y ∈ ys, ∃ x ∈ l, f x = .ok y :=
  forall₂_mem_right (mapE_ok_forall₂ h)

theorem mapE_error_mem {α β : Type} {f : α → Except TypedError β} :
    ∀ {l : List α} {e : TypedError}, mapE f l = .error e → ∃ x ∈ l, f x = .error e := by
  intro l
  induction l with
  | nil => intro e h; simp only [mapE] at h; cases h
  | cons x xs ih =>
      intro e h
      simp only [mapE] at h
      cases hf : f x with
      | error e' =>
          rw [hf] at h
          cases h
          exact ⟨x, List.mem_cons_self _ _, hf⟩
      | ok y =>
          rw [hf] at h
          cases hm : mapE f xs with
          | error e' =>
              rw [hm] at h
              cases h
              obtain ⟨x', hx', hfx'⟩ := ih hm
              exact ⟨x', List.mem_cons_of_mem _ hx', hfx'⟩
          | ok ys => rw [hm] at h; cases h

theorem mapE_error_of_mem_error {α β : Type} {f : α → Except TypedError β}
    {l : List α} {x : α} {e : TypedError} (hx : x ∈ l) (hf : f x = .error e) :
    ∃ e', mapE f l = .error e' := by
  cases h : mapE f l with
  | error e' => exact ⟨e', rfl⟩
  | ok ys =>
      obtain ⟨y, hy⟩ := mapE_ok_mem h x hx
      rw [hf] at hy
      cases hy

/-- `applier` maps the empty argument list to itself whatever the matcher
table is. -/
theorem applier_nil (ms : List (Option Conv)) : applier ms [] = [] := rfl

/-- The `tuple` combinator on the empty slot list accepts exactly the
empty argument list. -/
theorem tuple_nil_eq_true_iff (args : List JSValue) :
    tuple [] args = true ↔ args = [] := by
  cases args with
  | nil => simp [tuple]
  | cons a as => simp [tuple]

/-! ### The factory's specialized paths versus the general scan -/

theorem find?_guard_cons_pos (c0 : Candidate) (rest : List Candidate)
    (args : List JSValue) (h : c0.guard args = true) :
    (c0 :: rest).find? (fun c => c.guard args) = some c0 := by
  simp [List.find?_cons, h]

theorem find?_guard_cons_neg (c0 : Candidate) (rest : List Candidate)
    (args : List JSValue) (h : c0.guard args = false) :
    (c0 :: rest).find? (fun c => c.guard args) = rest.find? (fun c => c.guard args) := by
  simp [List.find?_cons, h]

/-- The general scan invokes the first candidate `find?` selects. -/
theorem generalScan_of_find?_some {seq : List Candidate} {args : List JSValue}
    {c : Candidate} (h : seq.find? (fun c => c.guard args) = some c) :
    generalScan seq args = .ok (c.method (c.convert args)) := by
  simp [generalScan, choose, h]

/-- The general scan fails with the attempted-types dispatch error when no
candidate guard accepts. -/
theorem generalScan_of_find?_none {seq : List Candidate} {args : List JSValue}
    (h : seq.find? (fun c => c.guard args) = none) :
    generalScan seq args = .error (.noMatch (args.map typeName)) := by
  simp [generalScan, choose, h]

/-- Core dispatch lemma: on a well-formed nonempty candidate list, every
function `_makeFunction` builds behaves like the `choose`-based general
scan, except that the specialized paths report a failed dispatch with the
constant `No alternatives were matched` error instead of `choose`'s
error. -/
theorem makeFunction_vs_general (sequence : List Candidate) (maxLength : Nat)
    (hwf : NullarySafe sequence maxLength) (hne : sequence ≠ [])
    (args : List JSValue) :
    makeFunction sequence maxLength args = generalScan sequence args ∨
      (makeFunction sequence maxLength args = .error .noAlternatives ∧
        generalScan sequence args = .error (.noMatch (args.map typeName))) := by
  cases sequence with
  | nil => exact absurd rfl hne
  | cons c0 rest =>
    cases maxLength with
    | zero =>
      have hall := hwf rfl
      cases args with
      | nil =>
          left
          have hg : c0.guard [] = true := by
            rw [(hall c0 (List.mem_cons_self _ _)).1]; rfl
          have hcv : c0.convert [] = [] := by
            rw [(hall c0 (List.mem_cons_self _ _)).2]; rfl
          rw [generalScan_of_find?_some (find?_guard_cons_pos c0 rest [] hg), hcv]
          rfl
      | cons a as =>
          right
          have hnone : (c0 :: rest).find? (fun c => c.guard (a :: as)) = none := by
            rw [List.find?_eq_none]
            intro c hc
            rw [(hall c hc).1]
            simp [tuple]
          exact ⟨by simp [makeFunction], generalScan_of_find?_none hnone⟩
    | succ n =>
      cases rest with
      | nil =>
          cases hg : c0.guard args with
          | true =>
              left
              have hl : makeFunction [c0] (n + 1) args =
                  .ok (c0.method (c0.convert args)) := by
                simp [makeFunction, hg]
              rw [hl, generalScan_of_find?_some (find?_guard_cons_pos c0 [] args hg)]
          | false =>
              right
              have hnone : (c0 :: []).find? (fun c => c.guard args) = none := by
                rw [find?_guard_cons_neg c0 [] args hg]
                rfl
              exact ⟨by simp [makeFunction, hg], generalScan_of_find?_none hnone⟩
      | cons c1 rest2 =>
        cases rest2 with
        | nil =>
            cases hg0 : c0.guard args with
            | true =>
                left
                have hl : makeFunction [c0, c1] (n + 1) args =
                    .ok (c0.method (c0.convert args)) := by
                  simp [makeFunction, hg0]
                rw [hl,
                  generalScan_of_find?_some (find?_guard_cons_pos c0 [c1] args hg0)]
            | false =>
                cases hg1 : c1.guard args with
                | true =>
                    left
                    have hl : makeFunction [c0, c1] (n + 1) args =
                        .ok (c1.method (c1.convert args)) := by
                      simp [makeFunction, hg0, hg1]
                    have hfind : (c0 :: c1 :: []).find? (fun c => c.guard args) =
                        some c1 := by
                      rw [find?_guard_cons_neg c0 [c1] args hg0,
                        find?_guard_cons_pos c1 [] args hg1]
                    rw [hl, generalScan_of_find?_some hfind]
                | false =>
                    right
                    have hnone : (c0 :: c1 :: []).find? (fun c => c.guard args) =
                        none := by
                      rw [find?_guard_cons_neg c0 [c1] args hg0,
                        find?_guard_cons_neg c1 [] args hg1]
                      rfl
                    exact ⟨by simp [makeFunction, hg0, hg1],
                      generalScan_of_find?_none hnone⟩
        | cons c2 rest3 =>
            left
            rfl

/-! ### Structure of compiled candidate lists -/

/-- Every candidate that `buildSequence` emits comes from one signature
of one method definition, compiled by `_getSignatureGuard`. -/
theorem buildSequence_mem {T : Type} [DecidableEq T] (t : Typed T) :
    ∀ {defs : List (MethodDef T)} {seq : List Candidate}
      {defs2 : List (MethodDef T)},
      t.buildSequence defs = .ok (seq, defs2) →
      ∀ c ∈ seq, ∃ d ∈ defs, ∃ s ∈ d.signatures, ∃ sc : SigCompiled T,
        t.getSignatureGuard s = .ok sc ∧ c = ⟨sc.guard, d.method, sc.convert⟩ := by
  intro defs
  induction defs with
  | nil =>
      intro seq defs2 h c hc
      simp only [Typed.buildSequence] at h
      cases h
      cases hc
  | cons d rest ih =>
      intro seq defs2 h c hc
      simp only [Typed.buildSequence] at h
      cases hm : mapE (t.getSignatureGuard) d.signatures with
      | error e => rw [hm] at h; cases h
      | ok sigs =>
          rw [hm] at h
          cases hr : t.buildSequence rest with
          | error e => rw [hr] at h; cases h
          | ok p =>
              obtain ⟨cs, ds⟩ := p
              rw [hr] at h
              injection h with h1
              injection h1 with hseq hdefs
              subst hseq
              rcases List.mem_append.mp hc with hl | hrt
              · obtain ⟨sc, hscmem, hceq⟩ := List.mem_map.mp hl
                obtain ⟨s, hsmem, hsc⟩ := mapE_ok_mem_right hm sc hscmem
                exact ⟨d, List.mem_cons_self _ _, s, hsmem, sc, hsc, hceq.symm⟩
              · obtain ⟨d', hd', s, hs, sc, hsc, hceq⟩ := ih hr c hrt
                exact ⟨d', List.mem_cons_of_mem _ hd', s, hs, sc, hsc, hceq⟩

theorem foldl_max_len_zero {α : Type} (f : α → Nat) :
    ∀ (l : List α) (m : Nat),
      l.foldl (fun a x => max a (f x)) m = 0 → m = 0 ∧ ∀ x ∈ l, f x = 0 := by
  intro l
  induction l with
  | nil =>
      intro m h
      refine ⟨by simpa using h, ?_⟩
      intro x hx
      cases hx
  | cons x xs ih =>
      intro m h
      rw [List.foldl_cons] at h
      obtain ⟨hmx, hall⟩ := ih _ h
      rw [Nat.max_eq_zero_iff] at hmx
      refine ⟨hmx.1, ?_⟩
      intro y hy
      cases hy with
      | head => exact hmx.2
      | tail _ hy => exact hall y hy

/-- When the running `maxLength` over a metadata map is `0`, every
signature in it declares zero parameters. -/
theorem maxLengthOf_go_zero {T : Type} :
    ∀ (defs : List (MethodDef T)) (m : Nat),
      defs.foldl (fun m d => d.signatures.foldl (fun m s => max m s.length) m) m = 0 →
      m = 0 ∧ ∀ d ∈ defs, ∀ s ∈ d.signatures, s.length = 0 := by
  intro defs
  induction defs with
  | nil =>
      intro m h
      refine ⟨by simpa using h, ?_⟩
      intro d hd
      cases hd
  | cons d rest ih =>
      intro m h
      rw [List.foldl_cons] at h
      obtain ⟨hinner, hall⟩ := ih _ h
      obtain ⟨hm, hsigs⟩ := foldl_max_len_zero List.length d.signatures m hinner
      refine ⟨hm, ?_⟩
      intro d' hd'
      cases hd' with
      | head => exact hsigs
      | tail _ hd' => exact hall d' hd'

/-- Candidate lists built by the compiler are well formed with respect to
their own `maxLength`. -/
theorem buildSequence_nullarySafe {T : Type} [DecidableEq T] (t : Typed T)
    {defs : List (MethodDef T)} {seq : List Candidate}
    {defs2 : List (MethodDef T)} (h : t.buildSequence defs = .ok (seq, defs2)) :
    NullarySafe seq (maxLengthOf defs) := by
  intro h0 c hc
  obtain ⟨d, hd, s, hs, sc, hsc, hceq⟩ := buildSequence_mem t h c hc
  have h0' : defs.foldl
      (fun m d => d.signatures.foldl (fun m s => max m s.length) m) 0 = 0 := h0
  have hlen : s.length = 0 := (maxLengthOf_go_zero defs 0 h0').2 d hd s hs
  have hsnil : s = [] := List.length_eq_zero.mp hlen
  subst hsnil
  have hempty : t.getSignatureGuard ([] : List (List T)) =
      .ok ⟨[], tuple [], applier []⟩ := rfl
  rw [hempty] at hsc
  injection hsc with hsc
  subst hsc
  subst hceq
  exact ⟨rfl, rfl⟩

/-- Decomposition of a successful compilation: the callable is the factory
applied to the built sequence, and that sequence is well formed. -/
theorem function_ok_core {T : Type} [DecidableEq T] (t : Typed T)
    (spec : FunSpec T) {fn : List JSValue → Except TypedError JSValue}
    {spec' : FunSpec T} (h : t.function (some spec) = .ok (fn, spec')) :
    ∃ seq defs2, t.buildSequence spec.defs = .ok (seq, defs2) ∧
      fn = makeFunction seq (maxLengthOf spec.defs) ∧
      spec' = ⟨defs2⟩ ∧ NullarySafe seq (maxLengthOf spec.defs) := by
  simp only [Typed.function] at h
  rw [if_neg (Nat.not_lt_zero _)] at h
  cases hb : t.buildSequence spec.defs with
  | error e => rw [hb] at h; cases h
  | ok p =>
      obtain ⟨seq, defs2⟩ := p
      rw [hb] at h
      injection h with h1
      injection h1 with hfn hspec
      exact ⟨seq, defs2, rfl, hfn.symm, hspec.symm, buildSequence_nullarySafe t hb⟩

/-! ### Structure of the one-hop conversion expansion -/

theorem expandStep_ext {T : Type} [DecidableEq T] (acc : List T × List Conv)
    (e : ConversionMethod T) :
    ∃ t1 t2, (expandStep acc e).1 = acc.1 ++ t1 ∧ (expandStep acc e).2 = acc.2 ++ t2 := by
  unfold expandStep
  by_cases h : e.fromType ∈ acc.1
  · rw [if_pos h]
    exact ⟨[], [], by simp, by simp⟩
  · rw [if_neg h]
    exact ⟨[e.fromType], [e.convert], rfl, rfl⟩

theorem foldl_expandStep_ext {T : Type} [DecidableEq T] :
    ∀ (edges : List (ConversionMethod T)) (acc : List T × List Conv),
      ∃ t1 t2, (edges.foldl expandStep acc).1 = acc.1 ++ t1 ∧
        (edges.foldl expandStep acc).2 = acc.2 ++ t2 := by
  intro edges
  induction edges with
  | nil => intro acc; exact ⟨[], [], by simp, by simp⟩
  | cons e es ih =>
      intro acc
      rw [List.foldl_cons]
      obtain ⟨t1, t2, h1, h2⟩ := ih (expandStep acc e)
      obtain ⟨s1, s2, hs1, hs2⟩ := expandStep_ext acc e
      exact ⟨s1 ++ t1, s2 ++ t2, by rw [h1, hs1, List.append_assoc],
        by rw [h2, hs2, List.append_assoc]⟩

theorem foldl_expandTypeStep_ext {T : Type} [DecidableEq T]
    (convs : List (T × List (ConversionMethod T))) :
    ∀ (iter : List T) (acc : List T × List Conv),
      ∃ t1 t2, (iter.foldl (expandTypeStep convs) acc).1 = acc.1 ++ t1 ∧
        (iter.foldl (expandTypeStep convs) acc).2 = acc.2 ++ t2 := by
  intro iter
  induction iter with
  | nil => intro acc; exact ⟨[], [], by simp, by simp⟩
  | cons t0 ts ih =>
      intro acc
      rw [List.foldl_cons]
      obtain ⟨t1, t2, h1, h2⟩ := ih (expandTypeStep convs acc t0)
      obtain ⟨s1, s2, hs1, hs2⟩ := foldl_expandStep_ext (edgesFor convs t0) acc
      exact ⟨s1 ++ t1, s2 ++ t2,
        by rw [h1]; rw [show expandTypeStep convs acc t0 =
            (edgesFor convs t0).foldl expandStep acc from rfl, hs1, List.append_assoc],
        by rw [h2]; rw [show expandTypeStep convs acc t0 =
            (edgesFor convs t0).foldl expandStep acc from rfl, hs2, List.append_assoc]⟩

/-- Completeness of the inner loop: every edge processed contributes its
`fromType` to the accumulated type set. -/
theorem foldl_expandStep_mem_from {T : Type} [DecidableEq T] :
    ∀ (edges : List (ConversionMethod T)) (acc : List T × List Conv),
      ∀ e ∈ edges, e.fromType ∈ (edges.foldl expandStep acc).1 := by
  intro edges
  induction edges with
  | nil => intro acc e he; cases he
  | cons e0 es ih =>
      intro acc e he
      rw [List.foldl_cons]
      cases he with
      | head =>
          obtain ⟨t1, _, h1, _⟩ := foldl_expandStep_ext es (expandStep acc e0)
          rw [h1]
          apply List.mem_append_left
          unfold expandStep
          by_cases h : e0.fromType ∈ acc.1
          · rw [if_pos h]; exact h
          · rw [if_neg h]; simp
      | tail _ he => exact ih (expandStep acc e0) e he

/-- Completeness of the outer loop: for every visited declared type, every
conversion edge into it contributes its `fromType`. -/
theorem foldl_expandTypeStep_mem_from {T : Type} [DecidableEq T]
    (convs : List (T × List (ConversionMethod T))) :
    ∀ (iter : List T) (acc : List T × List Conv) (to' : T), to' ∈ iter →
      ∀ e ∈ edgesFor convs to',
        e.fromType ∈ (iter.foldl (expandTypeStep convs) acc).1 := by
  intro iter
  induction iter with
  | nil => intro acc to' hto; cases hto
  | cons t0 ts ih =>
      intro acc to' hto e he
      rw [List.foldl_cons]
      cases hto with
      | head =>
          have hin : e.fromType ∈ (expandTypeStep convs acc t0).1 :=
            foldl_expandStep_mem_from (edgesFor convs t0) acc e he
          obtain ⟨t1, _, h1, _⟩ := foldl_expandTypeStep_ext convs ts
            (expandTypeStep convs acc t0)
          rw [h1]
          exact List.mem_append_left _ hin
      | tail _ hto => exact ih (expandTypeStep convs acc t0) to' hto e he

/-- The expansion step preserves the accumulator invariant. -/
theorem expandStep_inv {T : Type} [DecidableEq T]
    {convs : List (T × List (ConversionMethod T))} {declared : List T}
    {acc : List T × List Conv} {to' : T} {e : ConversionMethod T}
    (hto : to' ∈ declared) (he : e ∈ edgesFor convs to')
    (hinv : SlotInv convs declared acc) :
    SlotInv convs declared (expandStep acc e) := by
  obtain ⟨added, addedCs, h1, h2, hnd, hrel⟩ := hinv
  unfold expandStep
  by_cases hmem : e.fromType ∈ acc.1
  · rw [if_pos hmem]
    exact ⟨added, addedCs, h1, h2, hnd, hrel⟩
  · rw [if_neg hmem]
    refine ⟨added ++ [e.fromType], addedCs ++ [e.convert], ?_, ?_, ?_, ?_⟩
    · rw [h1, List.append_assoc]
    · rw [h2, List.append_assoc]
    · have hnotin : e.fromType ∉ added := fun hin =>
        hmem (by rw [h1]; exact List.mem_append_right _ hin)
      rw [List.nodup_append]
      exact ⟨hnd, List.nodup_singleton _, by simpa using hnotin⟩
    · refine List.rel_append hrel ?_
      refine List.forall₂_cons.mpr ⟨?_, List.Forall₂.nil⟩
      refine ⟨fun hx => hmem (by rw [h1]; exact List.mem_append_left _ hx), ?_⟩
      exact ⟨to', hto, e, he, rfl, rfl⟩

theorem foldl_expandStep_inv {T : Type} [DecidableEq T]
    {convs : List (T × List (ConversionMethod T))} {declared : List T} {to' : T}
    (hto : to' ∈ declared) :
    ∀ (edges : List (ConversionMethod T)) (acc : List T × List Conv),
      (∀ e ∈ edges, e ∈ edgesFor convs to') → SlotInv convs declared acc →
      SlotInv convs declared (edges.foldl expandStep acc) := by
  intro edges
  induction edges with
  | nil => intro acc _ hinv; exact hinv
  | cons e0 es ih =>
      intro acc hsub hinv
      rw [List.foldl_cons]
      exact ih (expandStep acc e0) (fun e he => hsub e (List.mem_cons_of_mem _ he))
        (expandStep_inv hto (hsub e0 (List.mem_cons_self _ _)) hinv)

theorem foldl_expandTypeStep_inv {T : Type} [DecidableEq T]
    {convs : List (T × List (ConversionMethod T))} {declared : List T} :
    ∀ (iter : List T), (∀ x ∈ iter, x ∈ declared) →
      ∀ (acc : List T × List Conv), SlotInv convs declared acc →
      SlotInv convs declared (iter.foldl (expandTypeStep convs) acc) := by
  intro iter
  induction iter with
  | nil => intro _ acc hinv; exact hinv
  | cons t0 ts ih =>
      intro hsub acc hinv
      rw [List.foldl_cons]
      refine ih (fun x hx => hsub x (List.mem_cons_of_mem _ hx))
        (expandTypeStep convs acc t0) ?_
      exact foldl_expandStep_inv (hsub t0 (List.mem_cons_self _ _))
        (edgesFor convs t0) acc (fun e he => he) hinv

/-- The full expansion of a declared parameter satisfies the invariant. -/
theorem expandParam_inv {T : Type} [DecidableEq T]
    (convs : List (T × List (ConversionMethod T))) (declared : List T) :
    SlotInv convs declared (expandParam convs declared) := by
  refine foldl_expandTypeStep_inv declared (fun x hx => hx) _ ?_
  exact ⟨[], [], by simp, by simp, List.nodup_nil, List.Forall₂.nil⟩

/-- Completeness of the full expansion. -/
theorem expandParam_mem_from {T : Type} [DecidableEq T]
    (convs : List (T × List (ConversionMethod T))) (declared : List T)
    {to' : T} (hto : to' ∈ declared) {e : ConversionMethod T}
    (he : e ∈ edgesFor convs to') :
    e.fromType ∈ (expandParam convs declared).1 :=
  foldl_expandTypeStep_mem_from convs declared _ to' hto e he

/-! ### Shape of configuration errors -/

theorem getGuard_error_shape {T : Type} [DecidableEq T] {t : Typed T} {tok : T}
    {e : TypedError} (h : t.getGuard tok = .error e) :
    lookupMap t.guards tok = none ∧ t.autoadd = false ∧
      e = .unknownType (t.nameOf tok) := by
  unfold Typed.getGuard at h
  cases hl : lookupMap t.guards tok with
  | some gs => rw [hl] at h; cases h
  | none =>
      rw [hl] at h
      cases hauto : t.autoadd with
      | true => rw [hauto] at h; simp at h
      | false =>
          rw [hauto] at h
          simp only [Bool.false_eq_true, if_false] at h
          injection h with h
          exact ⟨rfl, rfl, h.symm⟩

theorem getGuard_error_of_unregistered {T : Type} [DecidableEq T] {t : Typed T}
    {tok : T} (hl : lookupMap t.guards tok = none) (hauto : t.autoadd = false) :
    t.getGuard tok = .error (.unknownType (t.nameOf tok)) := by
  unfold Typed.getGuard
  rw [hl, hauto]
  rfl

theorem convertParamToUnion_error_shape {T : Type} [DecidableEq T] {t : Typed T}
    {types : List T} {e : TypedError} (h : t.convertParamToUnion types = .error e) :
    ∃ tok, lookupMap t.guards tok = none ∧ t.autoadd = false ∧
      e = .unknownType (t.nameOf tok) := by
  unfold Typed.convertParamToUnion at h
  cases hm : mapE t.getGuard (expandParam t.conversions types).1 with
  | error e' =>
      rw [hm] at h
      injection h with h
      subst h
      obtain ⟨tok, _, htok⟩ := mapE_error_mem hm
      obtain ⟨h1, h2, h3⟩ := getGuard_error_shape htok
      exact ⟨tok, h1, h2, h3⟩
  | ok gs =>
      rw [hm] at h
      have h2 : (if types.length = (expandParam t.conversions types).1.length then
          (Except.ok ⟨(expandParam t.conversions types).1, union gs, none⟩ :
            Except TypedError (SlotCompiled T))
        else .ok ⟨(expandParam t.conversions types).1, union gs,
          some (matcher gs (expandParam t.conversions types).2)⟩) = .error e := h
      split at h2 <;> cases h2

theorem getSignatureGuard_error_shape {T : Type} [DecidableEq T] {t : Typed T}
    {params : List (List T)} {e : TypedError}
    (h : t.getSignatureGuard params = .error e) :
    ∃ tok, lookupMap t.guards tok = none ∧ t.autoadd = false ∧
      e = .unknownType (t.nameOf tok) := by
  unfold Typed.getSignatureGuard at h
  cases hm : mapE t.convertParamToUnion params with
  | error e' =>
      rw [hm] at h
      injection h with h
      subst h
      obtain ⟨p, _, hp⟩ := mapE_error_mem hm
      exact convertParamToUnion_error_shape hp
  | ok slots => rw [hm] at h; cases h

theorem buildSequence_error_shape {T : Type} [DecidableEq T] (t : Typed T) :
    ∀ {defs : List (MethodDef T)} {e : TypedError},
      t.buildSequence defs = .error e →
      ∃ tok, lookupMap t.guards tok = none ∧ t.autoadd = false ∧
        e = .unknownType (t.nameOf tok) := by
  intro defs
  induction defs with
  | nil => intro e h; simp only [Typed.buildSequence] at h; cases h
  | cons d rest ih =>
      intro e h
      simp only [Typed.buildSequence] at h
      cases hm : mapE t.getSignatureGuard d.signatures with
      | error e' =>
          rw [hm] at h
          injection h with h
          subst h
          obtain ⟨s, _, hs⟩ := mapE_error_mem hm
          exact getSignatureGuard_error_shape hs
      | ok sigs =>
          rw [hm] at h
          cases hr : t.buildSequence rest with
          | error e' =>
              rw [hr] at h
              injection h with h
              subst h
              exact ih hr
          | ok p => obtain ⟨cs, ds⟩ := p; rw [hr] at h; cases h

/-- A successful `buildSequence` compiled every signature of every key. -/
theorem buildSequence_ok_sigs {T : Type} [DecidableEq T] (t : Typed T) :
    ∀ {defs : List (MethodDef T)} {seq : List Candidate}
      {defs2 : List (MethodDef T)}, t.buildSequence defs = .ok (seq, defs2) →
      ∀ d ∈ defs, ∀ s ∈ d.signatures, ∃ sc, t.getSignatureGuard s = .ok sc := by
  intro defs
  induction defs with
  | nil => intro seq defs2 _ d hd; cases hd
  | cons d0 rest ih =>
      intro seq defs2 h d hd s hs
      simp only [Typed.buildSequence] at h
      cases hm : mapE t.getSignatureGuard d0.signatures with
      | error e => rw [hm] at h; cases h
      | ok sigs =>
          rw [hm] at h
          cases hr : t.buildSequence rest with
          | error e => rw [hr] at h; cases h
          | ok p =>
              obtain ⟨cs, ds⟩ := p
              rw [hr] at h
              cases hd with
              | head => exact mapE_ok_mem hm s hs
              | tail _ hd => exact ih hr d hd s hs

/-- A successful `_getSignatureGuard` compiled every parameter. -/
theorem getSignatureGuard_ok_params {T : Type} [DecidableEq T] {t : Typed T}
    {params : List (List T)} {sc : SigCompiled T}
    (h : t.getSignatureGuard params = .ok sc) :
    ∀ p ∈ params, ∃ slot, t.convertParamToUnion p = .ok slot := by
  unfold Typed.getSignatureGuard at h
  cases hm : mapE t.convertParamToUnion params with
  | error e => rw [hm] at h; cases h
  | ok slots => exact fun p hp => mapE_ok_mem hm p hp

/-- A successful `_convertParamToUnion` resolved a guard for every token
of the expanded set. -/
theorem convertParamToUnion_ok_guards {T : Type} [DecidableEq T] {t : Typed T}
    {types : List T} {slot : SlotCompiled T}
    (h : t.convertParamToUnion types = .ok slot) :
    ∀ tok ∈ (expandParam t.conversions types).1, ∃ g, t.getGuard tok = .ok g := by
  unfold Typed.convertParamToUnion at h
  cases hm : mapE t.getGuard (expandParam t.conversions types).1 with
  | error e => rw [hm] at h; cases h
  | ok gs => exact fun tok htok => mapE_ok_mem hm tok htok

/-- A successful `_convertParamToUnion` stores the expanded type set in
the compiled slot. -/
theorem convertParamToUnion_ok_types {T : Type} [DecidableEq T] {t : Typed T}
    {types : List T} {slot : SlotCompiled T}
    (h : t.convertParamToUnion types = .ok slot) :
    slot.types = (expandParam t.conversions types).1 := by
  unfold Typed.convertParamToUnion at h
  cases hm : mapE t.getGuard (expandParam t.conversions types).1 with
  | error e => rw [hm] at h; cases h
  | ok gs =>
      rw [hm] at h
      have h2 : (if types.length = (expandParam t.conversions types).1.length then
          (Except.ok ⟨(expandParam t.conversions types).1, union gs, none⟩ :
            Except TypedError (SlotCompiled T))
        else .ok ⟨(expandParam t.conversions types).1, union gs,
          some (matcher gs (expandParam t.conversions types).2)⟩) = .ok slot := h
      split at h2 <;> (injection h2 with h2; rw [← h2])

/-- A compilation failure surfaces the `buildSequence` error unchanged. -/
theorem function_error_of_buildSequence {T : Type} [DecidableEq T] {t : Typed T}
    {spec : FunSpec T} {e : TypedError} (h : t.buildSequence spec.defs = .error e) :
    t.function (some spec) = .error e := by
  simp only [Typed.function]
  rw [if_neg (Nat.not_lt_zero _), h]

/-- The only errors a compiled callable can produce are the dispatch
failures (and the empty-candidate-list crash); in particular never
`Unknown type`. -/
theorem makeFunction_error_shape (sequence : List Candidate) (maxLength : Nat)
    (args : List JSValue) (e : TypedError)
    (h : makeFunction sequence maxLength args = .error e) :
    e = .internal ∨ e = .noAlternatives ∨ ∃ l, e = .noMatch l := by
  cases sequence with
  | nil =>
      injection h with h
      exact .inl h.symm
  | cons c0 rest =>
    cases maxLength with
    | zero =>
        cases args with
        | nil => cases h
        | cons a as =>
            have h' : Except.error TypedError.noAlternatives =
                (Except.error e : Except TypedError JSValue) := by
              rw [← h]; simp [makeFunction]
            injection h' with h'
            exact .inr (.inl h'.symm)
    | succ n =>
      cases rest with
      | nil =>
          cases hg : c0.guard args with
          | true => simp [makeFunction, hg] at h
          | false =>
              simp only [makeFunction, hg] at h
              simp at h
              exact .inr (.inl h.symm)
      | cons c1 rest2 =>
        cases rest2 with
        | nil =>
            cases hg0 : c0.guard args with
            | true => simp [makeFunction, hg0] at h
            | false =>
                cases hg1 : c1.guard args with
                | true => simp [makeFunction, hg0, hg1] at h
                | false =>
                    simp only [makeFunction, hg0, hg1] at h
                    simp at h
                    exact .inr (.inl h.symm)
        | cons c2 rest3 =>
            have h' : generalScan (c0 :: c1 :: c2 :: rest3) args = .error e := h
            unfold generalScan choose at h'
            cases hf : (c0 :: c1 :: c2 :: rest3).find? (fun c => c.guard args) with
            | some c => rw [hf] at h'; cases h'
            | none =>
                rw [hf] at h'
                injection h' with h'
                exact .inr (.inr ⟨args.map typeName, h'.symm⟩)

/-- Unfolding of the `tuple` combinator on nonempty slot and argument
lists. -/
theorem tuple_cons (g : Guard) (gs : List Guard) (a : JSValue) (as : List JSValue) :
    tuple (g :: gs) (a :: as) = (g a && tuple gs as) := by
  have hdec : decide ((a :: as).length = (g :: gs).length) =
      decide (as.length = gs.length) := by
    rw [decide_eq_decide]
    simp
  simp only [tuple, List.zip_cons_cons, List.all_cons, hdec]
  cases hga : g a <;> cases hd : decide (as.length = gs.length) <;>
    cases hall : (gs.zip as).all (fun x => x.1 x.2) <;> simp

/-! ### The claims -/

/-- **C1** — End-to-end dispatch with conversion: with candidates
`number×number→number` (returning `a*b`) and `Pair×Pair→Pair` (field-wise
combination) and the registered conversion `number → Pair(value, 0)`, the
compiled callable returns `18` for `(3, 6)`; for `(3, Pair(0,6))` it
invokes the `Pair` implementation with the converted arguments
`(Pair(3,0), Pair(0,6))` — never with the raw number, as the second
conjunct holds for an arbitrary implementation — returning `Pair(0,18)`;
and for `(3, "6")` it fails with the dispatch `NoMatch` error. -/
theorem C1_end_to_end_dispatch :
    timesFn pairMul [.num 3, .num 6] = .ok (.num 18) ∧
    (∀ m2 : List JSValue → JSValue,
      timesFn m2 [.num 3, .pair 0 6] = .ok (m2 [.pair 3 0, .pair 0 6])) ∧
    timesFn pairMul [.num 3, .pair 0 6] = .ok (.pair 0 18) ∧
    (∃ e, timesFn pairMul [.num 3, .str "6"] = .error e ∧ e.isNoMatch = true) :=
  ⟨rfl, fun _ => rfl, rfl, ⟨.noAlternatives, rfl, rfl⟩⟩

/-- **C2** — First-match precedence: every dispatcher `Typed.function`
compiles invokes, on every argument tuple, the first candidate in list
order whose tuple guard accepts the arguments; in particular, of two
candidates both accepting `(number, number)` the one registered first is
always the one invoked. -/
theorem C2_first_match_precedence {T : Type} [DecidableEq T] (t : Typed T)
    (spec : FunSpec T) (fn : List JSValue → Except TypedError JSValue)
    (spec' : FunSpec T) (h : t.function (some spec) = .ok (fn, spec')) :
    (∃ seq defs2, t.buildSequence spec.defs = .ok (seq, defs2) ∧
      ∀ (args : List JSValue) (c : Candidate),
        seq.find? (fun c => c.guard args) = some c →
        fn args = .ok (c.method (c.convert args))) ∧
    (∀ (f g : List JSValue → JSValue) (a b : Int),
      twoNumFn f g [.num a, .num b] = .ok (f [.num a, .num b])) := by
  refine ⟨?_, fun _ _ _ _ => rfl⟩
  obtain ⟨seq, defs2, hb, hfn, _, hwf⟩ := function_ok_core t spec h
  refine ⟨seq, defs2, hb, ?_⟩
  intro args c hfind
  subst hfn
  have hne : seq ≠ [] := by
    intro hnil
    subst hnil
    simp at hfind
  rcases makeFunction_vs_general seq (maxLengthOf spec.defs) hwf hne args with
    heq | ⟨_, hgen⟩
  · rw [heq, generalScan_of_find?_some hfind]
  · rw [generalScan_of_find?_some hfind] at hgen
    cases hgen

/-- **C3** — One-hop conversion expansion: the final accepted type set of
a compiled parameter slot equals the declared types plus, for each
conversion edge whose `toType` is among the declared types and whose
`fromType` is not already in the set, that `fromType`; declared types map
to the identity converter and each added type maps to its edge's
converter; and the slot `_convertParamToUnion` builds stores exactly this
set. -/
theorem C3_one_hop_expansion {T : Type} [DecidableEq T]
    (convs : List (T × List (ConversionMethod T))) (declared : List T) :
    (∀ x, x ∈ (expandParam convs declared).1 ↔
      (x ∈ declared ∨ ∃ to' ∈ declared, ∃ e ∈ edgesFor convs to',
        e.fromType = x)) ∧
    (∃ added addedCs,
      (expandParam convs declared).1 = declared ++ added ∧
      (expandParam convs declared).2 = declared.map (fun _ => I) ++ addedCs ∧
      added.Nodup ∧
      List.Forall₂ (SlotRel convs declared) added addedCs) ∧
    (declared.Nodup → (expandParam convs declared).1.Nodup) ∧
    (∀ (t : Typed T) (slot : SlotCompiled T), t.conversions = convs →
      t.convertParamToUnion declared = .ok slot →
      slot.types = (expandParam convs declared).1) := by
  obtain ⟨added, addedCs, h1, h2, hnd, hrel⟩ := expandParam_inv convs declared
  refine ⟨?_, ⟨added, addedCs, h1, h2, hnd, hrel⟩, ?_, ?_⟩
  · intro x
    constructor
    · intro hx
      rw [h1] at hx
      rcases List.mem_append.mp hx with hd | ha
      · exact Or.inl hd
      · obtain ⟨c, _, _, to', hto, e, he, hfx, _⟩ := forall₂_mem_left hrel x ha
        exact Or.inr ⟨to', hto, e, he, hfx⟩
    · intro hx
      rcases hx with hd | ⟨to', hto, e, he, hfx⟩
      · rw [h1]
        exact List.mem_append_left _ hd
      · rw [← hfx]
        exact expandParam_mem_from convs declared hto he
  · intro hdn
    rw [h1, List.nodup_append]
    refine ⟨hdn, hnd, ?_⟩
    intro a ha1 ha2
    obtain ⟨c, _, hr⟩ := forall₂_mem_left hrel a ha2
    exact hr.1 ha1
  · intro t slot hc hok
    subst hc
    exact convertParamToUnion_ok_types hok

/-- **C4** — Unknown types fail at compile time, never at call time: a
function specification containing a declared or conversion-expanded type
token with no registered guard, compiled with auto-registration off,
fails with `Unknown type` naming an unregistered token before any
callable is produced; and no invocation of any successfully compiled
callable ever produces the `Unknown type` error. -/
theorem C4_unknown_type_at_compile_time {T : Type} [DecidableEq T] (t : Typed T)
    (spec : FunSpec T) (hauto : t.autoadd = false)
    (hbad : ∃ d ∈ spec.defs, ∃ s ∈ d.signatures, ∃ p ∈ s,
      ∃ tok ∈ (expandParam t.conversions p).1, lookupMap t.guards tok = none) :
    (∃ tok, lookupMap t.guards tok = none ∧
      t.function (some spec) = .error (.unknownType (t.nameOf tok))) ∧
    (∀ (t2 : Typed T) (spec2 : FunSpec T)
        (fn : List JSValue → Except TypedError JSValue) (spec2' : FunSpec T),
      t2.function (some spec2) = .ok (fn, spec2') →
      ∀ (args : List JSValue) (s : String),
        fn args ≠ .error (.unknownType s)) := by
  constructor
  · cases hb : t.buildSequence spec.defs with
    | ok p =>
        exfalso
        obtain ⟨seqq, dss⟩ := p
        obtain ⟨d, hd, s, hs, pp, hp, tok, htok, hlook⟩ := hbad
        obtain ⟨sc, hsc⟩ := buildSequence_ok_sigs t hb d hd s hs
        obtain ⟨slot, hslot⟩ := getSignatureGuard_ok_params hsc pp hp
        obtain ⟨g, hg⟩ := convertParamToUnion_ok_guards hslot tok htok
        rw [getGuard_error_of_unregistered hlook hauto] at hg
        cases hg
    | error e =>
        obtain ⟨tok, h1, _, h3⟩ := buildSequence_error_shape t hb
        subst h3
        exact ⟨tok, h1, function_error_of_buildSequence hb⟩
  · intro t2 spec2 fn spec2' hok args s habs
    obtain ⟨seq, defs2, _, hfn, _, _⟩ := function_ok_core t2 spec2 hok
    subst hfn
    rcases makeFunction_error_shape _ _ _ _ habs with h | h | ⟨l, h⟩ <;> simp at h

/-- **C5** counterexample — no function can read the attempted argument
types back out of the error a failed dispatch raises: the one-candidate
fast path throws the same constant `No alternatives were matched` error
for attempts with different argument types. -/
theorem C5_counterexample :
    ¬ ∃ recover : TypedError → List String,
      ∀ (args : List JSValue) (e : TypedError),
        mulFn args = .error e → recover e = args.map typeName := by
  rintro ⟨recover, hrec⟩
  have h1 : recover .noAlternatives = ["String"] := hrec [.str "x"] _ rfl
  have h2 : recover .noAlternatives = ["Pair"] := hrec [.pair 1 1] _ rfl
  rw [h1] at h2
  exact absurd h2 (by decide)

/-- **C5** amended — whenever no candidate's tuple guard accepts the
arguments, the call fails with a dispatch `NoMatch`-class error; the
general (three-or-more-candidate) scan's error carries the attempted
argument types, while the specialized paths throw the constant
`No alternatives were matched` error that does not carry them. -/
theorem C5_no_match_diagnostics {T : Type} [DecidableEq T] (t : Typed T)
    (spec : FunSpec T) (fn : List JSValue → Except TypedError JSValue)
    (spec' : FunSpec T) (h : t.function (some spec) = .ok (fn, spec')) :
    ∃ seq defs2, t.buildSequence spec.defs = .ok (seq, defs2) ∧
      (seq ≠ [] → ∀ args, seq.find? (fun c => c.guard args) = none →
        (fn args = .error .noAlternatives ∨
          fn args = .error (.noMatch (args.map typeName))) ∧
        ∃ e, fn args = .error e ∧ e.isNoMatch = true) := by
  obtain ⟨seq, defs2, hb, hfn, _, hwf⟩ := function_ok_core t spec h
  refine ⟨seq, defs2, hb, ?_⟩
  intro hne args hfind
  subst hfn
  rcases makeFunction_vs_general seq (maxLengthOf spec.defs) hwf hne args with
    heq | ⟨hl, _⟩
  · rw [heq, generalScan_of_find?_none hfind]
    exact ⟨Or.inr rfl, ⟨_, rfl, rfl⟩⟩
  · rw [hl]
    exact ⟨Or.inl rfl, ⟨_, rfl, rfl⟩⟩

/-- **C6** — Arity exactness via tuple guards: a candidate's tuple guard
accepts an argument list iff the list's length equals the slot count and
every position's slot guard accepts the argument at that position; hence
the dispatcher whose sole candidate has arity 2 fails with the dispatch
error for 1 or 3 actual arguments and succeeds for 2. -/
theorem C6_tuple_arity_exactness :
    (∀ (gs : List Guard) (args : List JSValue),
      tuple gs args = true ↔
        (args.length = gs.length ∧
          ∀ (i : Nat) (h1 : i < gs.length) (h2 : i < args.length),
            gs.get ⟨i, h1⟩ (args.get ⟨i, h2⟩) = true)) ∧
    mulFn [.num 3] = .error .noAlternatives ∧
    mulFn [.num 1, .num 2, .num 3] = .error .noAlternatives ∧
    mulFn [.num 3, .num 4] = .ok (.num 12) := by
  refine ⟨?_, rfl, rfl, rfl⟩
  intro gs
  induction gs with
  | nil =>
      intro args
      cases args with
      | nil =>
          constructor
          · intro _
            exact ⟨rfl, fun i h1 _ => absurd h1 (Nat.not_lt_zero i)⟩
          · intro _
            rfl
      | cons a as =>
          constructor
          · intro h
            simp [tuple] at h
          · rintro ⟨hlen, _⟩
            exact absurd hlen (by simp)
  | cons g gs ih =>
      intro args
      cases args with
      | nil =>
          constructor
          · intro h
            simp [tuple] at h
          · rintro ⟨hlen, _⟩
            exact absurd hlen (by simp)
      | cons a as =>
          rw [tuple_cons]
          constructor
          · intro h
            rw [Bool.and_eq_true] at h
            obtain ⟨hga, hrest⟩ := h
            obtain ⟨hlen, hidx⟩ := (ih as).mp hrest
            refine ⟨by simp [hlen], ?_⟩
            intro i h1 h2
            match i, h1, h2 with
            | 0, _, _ => exact hga
            | Nat.succ j, h1, h2 =>
                exact hidx j (Nat.lt_of_succ_lt_succ h1) (Nat.lt_of_succ_lt_succ h2)
          · rintro ⟨hlen, hidx⟩
            rw [Bool.and_eq_true]
            refine ⟨hidx 0 (Nat.succ_pos _) (Nat.succ_pos _), ?_⟩
            refine (ih as).mpr ⟨by simpa using hlen, ?_⟩
            intro j h1 h2
            exact hidx (j + 1) (Nat.succ_lt_succ h1) (Nat.succ_lt_succ h2)

/-- **C7** — Nullary case: a dispatcher all of whose candidates are
zero-arity (its running `maxLength` is `0`) runs the first nullary
candidate on zero arguments and returns its result, and fails with the
dispatch error on one or more arguments. -/
theorem C7_nullary_dispatch {T : Type} [DecidableEq T] (t : Typed T)
    (spec : FunSpec T) (fn : List JSValue → Except TypedError JSValue)
    (spec' : FunSpec T) (h : t.function (some spec) = .ok (fn, spec'))
    (hmax : maxLengthOf spec.defs = 0) :
    ∃ seq defs2, t.buildSequence spec.defs = .ok (seq, defs2) ∧
      ∀ (c0 : Candidate) (rest : List Candidate), seq = c0 :: rest →
        fn [] = .ok (c0.method []) ∧
        ∀ (a : JSValue) (as : List JSValue),
          fn (a :: as) = .error .noAlternatives := by
  obtain ⟨seq, defs2, hb, hfn, _, _⟩ := function_ok_core t spec h
  refine ⟨seq, defs2, hb, ?_⟩
  intro c0 rest hseq
  subst hfn
  subst hseq
  rw [hmax]
  exact ⟨rfl, fun a as => by simp [makeFunction]⟩

/-- **C8** — Empty candidate set rejected at construction: compiling a
class that carries no signature metadata (no `@signature` declaration
ever ran) always fails with `No signatures provided`, before any callable
is produced. -/
theorem C8_no_signatures {T : Type} [DecidableEq T] (t : Typed T) :
    t.function (none : Option (FunSpec T)) = .error .noSignatures := rfl

/-- **C9** — Fast paths are behaviorally identical to the general scan:
for every compiled dispatcher with a nonempty candidate list, the
specialized invocation functions (one candidate, two candidates, nullary)
succeed with exactly the values of the `choose`-based general scan and
fail with a dispatch error exactly when it does. -/
theorem C9_fast_paths_equiv_general {T : Type} [DecidableEq T] (t : Typed T)
    (spec : FunSpec T) (fn : List JSValue → Except TypedError JSValue)
    (spec' : FunSpec T) (h : t.function (some spec) = .ok (fn, spec')) :
    ∃ seq defs2, t.buildSequence spec.defs = .ok (seq, defs2) ∧
      (seq ≠ [] → ∀ args, sameOutcome (fn args) (generalScan seq args)) := by
  obtain ⟨seq, defs2, hb, hfn, _, hwf⟩ := function_ok_core t spec h
  refine ⟨seq, defs2, hb, ?_⟩
  intro hne args
  subst hfn
  rcases makeFunction_vs_general seq (maxLengthOf spec.defs) hwf hne args with
    heq | ⟨hl, hr⟩
  · rw [heq]
    exact ⟨fun v => Iff.rfl, Iff.rfl⟩
  · rw [hl, hr]
    constructor
    · intro v
      constructor <;> intro hv <;> cases hv
    · constructor <;> intro _ <;> exact ⟨_, rfl, rfl⟩

/-- **C10** — Compiling is not read-only on its input:
`_convertParamToUnion` appends the applicable conversions' `fromType`s to
the very parameter arrays stored in the signature metadata, so compiling
`Times` rewrites the stored `(Pair, Pair)` signature to
`(Pair|Number, Pair|Number)`; a second compilation starts from the
already-expanded sets (and, its accepted sets gaining nothing, records no
converters, so it passes the raw number through). -/
theorem C10_compile_mutates_metadata :
    ∀ m2 : List JSValue → JSValue,
      timesSpecOut m2 = ⟨[⟨"number", mulImpl, [[[.number], [.number]]]⟩,
        ⟨"pair", m2, [[[.pair, .number], [.pair, .number]]]⟩]⟩ ∧
      (timesSpec m2).defs.map (fun d => d.signatures) ≠
        (timesSpecOut m2).defs.map (fun d => d.signatures) ∧
      specOf (timesResult2 m2) = timesSpecOut m2 ∧
      timesFn m2 [.num 3, .pair 0 6] = .ok (m2 [.pair 3 0, .pair 0 6]) ∧
      timesFn2 m2 [.num 3, .pair 0 6] = .ok (m2 [.num 3, .pair 0 6]) := by
  intro m2
  refine ⟨rfl, ?_, rfl, rfl, rfl⟩
  have h1 : (timesSpec m2).defs.map (fun d => d.signatures) =
      [[[[Tok.number], [Tok.number]]], [[[Tok.pair], [Tok.pair]]]] := rfl
  have h2 : (timesSpecOut m2).defs.map (fun d => d.signatures) =
      [[[[Tok.number], [Tok.number]]],
        [[[Tok.pair, Tok.number], [Tok.pair, Tok.number]]]] := rfl
  rw [h1, h2]
  decide

/-! ### Witnesses: the claim theorems applied at concrete inputs -/

/-- Witness for **C2** at the concrete class with two `(number, number)`
candidates. -/
theorem C2_witness :
    (∃ seq defs2,
      typedTok.buildSequence (twoNumSpec mulImpl pairMul).defs = .ok (seq, defs2) ∧
      ∀ (args : List JSValue) (c : Candidate),
        seq.find? (fun c => c.guard args) = some c →
        twoNumFn mulImpl pairMul args = .ok (c.method (c.convert args))) ∧
    (∀ (f g : List JSValue → JSValue) (a b : Int),
      twoNumFn f g [.num a, .num b] = .ok (f [.num a, .num b])) :=
  C2_first_match_precedence typedTok (twoNumSpec mulImpl pairMul)
    (twoNumFn mulImpl pairMul)
    (specOf (typedTok.function (some (twoNumSpec mulImpl pairMul)))) rfl

/-- Witness for **C3** at the declared parameter `[Pair]` under the
concrete registry: its slot gains exactly `number`. -/
theorem C3_witness :
    pairSlot.types = (expandParam typedTok.conversions [Tok.pair]).1 ∧
    (expandParam typedTok.conversions [Tok.pair]).1.Nodup ∧
    Tok.number ∈ (expandParam typedTok.conversions [Tok.pair]).1 := by
  have h := C3_one_hop_expansion typedTok.conversions [Tok.pair]
  refine ⟨h.2.2.2 typedTok pairSlot rfl rfl, h.2.2.1 (by decide), ?_⟩
  exact (h.1 Tok.number).mpr (Or.inr ⟨Tok.pair, by decide,
    ⟨Tok.number, numToPair⟩, List.mem_cons_self _ _, rfl⟩)

/-- Witness for **C4**: the class naming the unregistered `Foo` fails at
compile time, and the compiled `mulFn` never reports an unknown type. -/
theorem C4_witness :
    (∃ tok, lookupMap typedTok.guards tok = none ∧
      typedTok.function (some fooSpec) =
        .error (.unknownType (typedTok.nameOf tok))) ∧
    (∀ (t2 : Typed Tok) (spec2 : FunSpec Tok)
        (fn : List JSValue → Except TypedError JSValue) (spec2' : FunSpec Tok),
      t2.function (some spec2) = .ok (fn, spec2') →
      ∀ (args : List JSValue) (s : String),
        fn args ≠ .error (.unknownType s)) :=
  C4_unknown_type_at_compile_time typedTok fooSpec rfl
    ⟨_, List.mem_cons_self _ _, [[Tok.foo]], by decide, [Tok.foo], by decide,
      Tok.foo, by decide, rfl⟩

/-- Witness for **C5** at the single-candidate dispatcher. -/
theorem C5_witness :
    ∃ seq defs2, typedTok.buildSequence mulSpec.defs = .ok (seq, defs2) ∧
      (seq ≠ [] → ∀ args, seq.find? (fun c => c.guard args) = none →
        (mulFn args = .error .noAlternatives ∨
          mulFn args = .error (.noMatch (args.map typeName))) ∧
        ∃ e, mulFn args = .error e ∧ e.isNoMatch = true) :=
  C5_no_match_diagnostics typedTok mulSpec mulFn
    (specOf (typedTok.function (some mulSpec))) rfl

/-- Witness for **C6**: the arity-2 tuple guard accepts a 2-argument list
of numbers and rejects a 1-argument list. -/
theorem C6_witness :
    tuple [isNumber, isNumber] [.num 3, .num 4] = true ∧
    tuple [isNumber, isNumber] [.num 3] = false := by
  refine ⟨(C6_tuple_arity_exactness.1 [isNumber, isNumber]
    [.num 3, .num 4]).mpr ⟨rfl, ?_⟩, rfl⟩
  intro i h1 h2
  match i, h1, h2 with
  | 0, _, _ => rfl
  | 1, _, _ => rfl
  | j + 2, h, _ =>
      exact absurd h (by simp only [List.length_cons, List.length_nil]; omega)

/-- Witness for **C7** at the concrete nullary class. -/
theorem C7_witness :
    ∃ seq defs2, typedTok.buildSequence nullarySpec.defs = .ok (seq, defs2) ∧
      ∀ (c0 : Candidate) (rest : List Candidate), seq = c0 :: rest →
        nullaryFn [] = .ok (c0.method []) ∧
        ∀ (a : JSValue) (as : List JSValue),
          nullaryFn (a :: as) = .error .noAlternatives :=
  C7_nullary_dispatch typedTok nullarySpec nullaryFn
    (specOf (typedTok.function (some nullarySpec))) rfl rfl

/-- Witness for **C9** at the compiled two-candidate `Times` dispatcher. -/
theorem C9_witness :
    ∃ seq defs2,
      typedTok.buildSequence (timesSpec pairMul).defs = .ok (seq, defs2) ∧
      (seq ≠ [] → ∀ args,
        sameOutcome (timesFn pairMul args) (generalScan seq args)) :=
  C9_fast_paths_equiv_general typedTok (timesSpec pairMul) (timesFn pairMul)
    (timesSpecOut pairMul) rfl

/-- Witness for **C10** at the concrete `Pair×Pair` implementation. -/
theorem C10_witness :
    timesSpecOut pairMul = ⟨[⟨"number", mulImpl, [[[.number], [.number]]]⟩,
      ⟨"pair", pairMul, [[[.pair, .number], [.pair, .number]]]⟩]⟩ ∧
    (timesSpec pairMul).defs.map (fun d => d.signatures) ≠
      (timesSpecOut pairMul).defs.map (fun d => d.signatures) ∧
    specOf (timesResult2 pairMul) = timesSpecOut pairMul ∧
    timesFn pairMul [.num 3, .pair 0 6] = .ok (pairMul [.pair 3 0, .pair 0 6]) ∧
    timesFn2 pairMul [.num 3, .pair 0 6] = .ok (pairMul [.num 3, .pair 0 6]) :=
  C10_compile_mutates_metadata pairMul

end TSTypedFunction

